import Mathlib

/-!
Verification of the chunked analytics retrieval and reassembly engine of the
LinkedIn Ads source connector
(`source_linkedin_ads/components.py`).

The Python code is shallowly embedded:

* field lists are `List String`;
* datetimes are day/second counts (`Nat`), durations are `Nat` offsets —
  the cursor granularity (one day in the deployed configuration) is kept as an
  explicit parameter `g`;
* Python dicts are insertion-ordered association lists (`List (String × _)`),
  with lookup returning `Option` and assignment replacing the first matching
  key in place (Python dicts keep the position of existing keys and append new
  keys at the end);
* fallible code (dict subscript `KeyError`, upstream retrieval failure)
  returns `Except`.
-/

namespace LinkedInAds

/-! ## Field chunking (`AnalyticsDatetimeBasedCursor.chunk_analytics_fields`) -/

/-- The two mandatory structural fields every chunk must carry. -/
def isMandatoryField (s : String) : Bool :=
  s == "dateRange" || s == "pivotValues"

/-- `list((fields[f : f + size] for f in range(0, len(fields), size)))`:
consecutive groups of at most `size` elements, in order.  The Python source
raises on `size = 0`; this embedding is only invoked with `size ≥ 1` (for
`size = 0` it behaves as `size = 1`). -/
def chunkList (size : Nat) : List String → List (List String)
  | [] => []
  | x :: xs => (x :: xs.take (size - 1)) :: chunkList size (xs.drop (size - 1))
termination_by l => l.length
decreasing_by
  simp only [List.length_drop, List.length_cons]
  omega

/-- `if f not in chunk: chunk.append(f)`. -/
def addIfMissing (f : String) (chunk : List String) : List String :=
  if f ∈ chunk then chunk else chunk ++ [f]

/-- The per-chunk fix-up of `chunk_analytics_fields`: append `"dateRange"` if
absent, then append `"pivotValues"` if absent from the updated chunk. -/
def ensureMandatory (chunk : List String) : List String :=
  addIfMissing "pivotValues" (addIfMissing "dateRange" chunk)

/-- `AnalyticsDatetimeBasedCursor.chunk_analytics_fields`: chunk the field
list into groups of at most `size`, then make sure each chunk contains the
two mandatory structural fields. -/
def chunk_analytics_fields (fields : List String) (size : Nat) : List (List String) :=
  (chunkList size fields).map ensureMandatory

theorem chunkList_join (size : Nat) (l : List String) :
    (chunkList size l).flatten = l := by
  induction l using chunkList.induct size with
  | case1 => simp [chunkList]
  | case2 x xs ih =>
    rw [chunkList]
    simp only [List.flatten_cons, ih, List.cons_append, List.take_append_drop]

theorem chunkList_length_le (size : Nat) (hsize : 0 < size) (l : List String) :
    ∀ c ∈ chunkList size l, c.length ≤ size := by
  induction l using chunkList.induct size with
  | case1 => simp [chunkList]
  | case2 x xs ih =>
    rw [chunkList]
    intro c hc
    rcases List.mem_cons.mp hc with h | h
    · subst h
      simp only [List.length_cons, List.length_take]
      omega
    · exact ih c h

theorem addIfMissing_length (f : String) (c : List String) :
    (addIfMissing f c).length ≤ c.length + 1 := by
  unfold addIfMissing
  split <;> simp

theorem addIfMissing_mem_self (f : String) (c : List String) :
    f ∈ addIfMissing f c := by
  unfold addIfMissing
  split <;> simp_all

theorem addIfMissing_mem_of_mem (f x : String) (c : List String) (h : x ∈ c) :
    x ∈ addIfMissing f c := by
  unfold addIfMissing
  split <;> simp_all

theorem ensureMandatory_length (c : List String) :
    (ensureMandatory c).length ≤ c.length + 2 := by
  unfold ensureMandatory
  have h1 := addIfMissing_length "pivotValues" (addIfMissing "dateRange" c)
  have h2 := addIfMissing_length "dateRange" c
  omega

theorem ensureMandatory_mem_dateRange (c : List String) :
    "dateRange" ∈ ensureMandatory c :=
  addIfMissing_mem_of_mem _ _ _ (addIfMissing_mem_self _ c)

theorem ensureMandatory_mem_pivotValues (c : List String) :
    "pivotValues" ∈ ensureMandatory c :=
  addIfMissing_mem_self _ _

theorem addIfMissing_filter (f : String) (c : List String)
    (hf : isMandatoryField f = true) :
    (addIfMissing f c).filter (fun s => !isMandatoryField s) =
      c.filter (fun s => !isMandatoryField s) := by
  unfold addIfMissing
  split
  · rfl
  · simp [List.filter_append, hf]

theorem ensureMandatory_filter (c : List String) :
    (ensureMandatory c).filter (fun s => !isMandatoryField s) =
      c.filter (fun s => !isMandatoryField s) := by
  unfold ensureMandatory
  rw [addIfMissing_filter _ _ (by decide), addIfMissing_filter _ _ (by decide)]

theorem filter_join_map (p : String → Bool) (L : List (List String)) :
    (L.map (fun c => c.filter p)).flatten = L.flatten.filter p := by
  induction L with
  | nil => rfl
  | cons c L ih =>
    simp only [List.map_cons, List.flatten_cons, List.filter_append, ih]

/-- **C1** (amended).  For every ordered field list and positive chunk size,
`chunk_analytics_fields` produces chunks of size at most `size + 2`, each
containing both mandatory structural fields `"dateRange"` and
`"pivotValues"`, and the concatenation of the chunks' non-mandatory fields
equals the non-mandatory part of the input field list, in order, each such
input field appearing exactly once across all chunks. -/
theorem chunk_analytics_fields_spec (fields : List String) (size : Nat)
    (hsize : 0 < size) :
    (∀ c ∈ chunk_analytics_fields fields size,
        c.length ≤ size + 2 ∧ "dateRange" ∈ c ∧ "pivotValues" ∈ c) ∧
    ((chunk_analytics_fields fields size).map
        (fun c => c.filter (fun s => !isMandatoryField s))).flatten =
      fields.filter (fun s => !isMandatoryField s) := by
  constructor
  · intro c hc
    rcases List.mem_map.mp hc with ⟨c0, hc0, rfl⟩
    refine ⟨?_, ensureMandatory_mem_dateRange c0, ensureMandatory_mem_pivotValues c0⟩
    calc (ensureMandatory c0).length ≤ c0.length + 2 := ensureMandatory_length c0
      _ ≤ size + 2 := by
          have := chunkList_length_le size hsize fields c0 hc0
          omega
  · unfold chunk_analytics_fields
    rw [List.map_map]
    have hmap : (chunkList size fields).map
        ((fun c => c.filter (fun s => !isMandatoryField s)) ∘ ensureMandatory) =
        (chunkList size fields).map (fun c => c.filter (fun s => !isMandatoryField s)) := by
      apply List.map_congr_left
      intro c _
      exact ensureMandatory_filter c
    rw [hmap, filter_join_map, chunkList_join]

/-- Witness for C1's amended theorem at a concrete input. -/
theorem chunk_analytics_fields_spec_witness :
    (∀ c ∈ chunk_analytics_fields ["impressions", "clicks", "costInUsd"] 2,
        c.length ≤ 2 + 2 ∧ "dateRange" ∈ c ∧ "pivotValues" ∈ c) ∧
    ((chunk_analytics_fields ["impressions", "clicks", "costInUsd"] 2).map
        (fun c => c.filter (fun s => !isMandatoryField s))).flatten =
      ["impressions", "clicks", "costInUsd"].filter (fun s => !isMandatoryField s) :=
  chunk_analytics_fields_spec ["impressions", "clicks", "costInUsd"] 2 (by decide)

/-- **C1** counterexample to the claim as stated: when the input field list
itself contains a mandatory structural field, the union of the chunks'
non-mandatory fields is not the input field set.  Here
`chunk_analytics_fields ["dateRange"] 1 = [["dateRange", "pivotValues"]]`,
whose non-mandatory part is empty while the input field set is
`["dateRange"]`. -/
theorem chunk_analytics_fields_counterexample :
    chunk_analytics_fields ["dateRange"] 1 = [["dateRange", "pivotValues"]] ∧
    ((chunk_analytics_fields ["dateRange"] 1).map
        (fun c => c.filter (fun s => !isMandatoryField s))).flatten ≠ ["dateRange"] := by
  have h : chunk_analytics_fields ["dateRange"] 1 = [["dateRange", "pivotValues"]] := by
    simp [chunk_analytics_fields, chunkList, ensureMandatory, addIfMissing]
  refine ⟨h, ?_⟩
  rw [h]
  decide

/-! ## Date-range partitioning (`AnalyticsDatetimeBasedCursor._partition_daterange`)

Datetimes are modelled as `Nat` day counts, the loop step `step` and the
cursor granularity `g` as positive day offsets (the deployed configuration
uses a one-day granularity, `g = 1`).  Each produced `StreamSlice` is
modelled by its start date, its end date
(`min (start + step - granularity) stop`) and the field chunks of its
`field_date_chunks` entries (the formatted date strings and the
day/month/year components of the Python dict are projections of the two
dates). -/

/-- One slice produced by `_partition_daterange`. -/
structure AnalyticsSlice where
  startDate : Nat
  endDate : Nat
  fieldChunks : List (List String)
deriving Repr, DecidableEq

/-- `AnalyticsDatetimeBasedCursor._partition_daterange`: iterate
`start, start + step, …` while `start ≤ stop`; each iteration produces a
slice ending at `min (start + step - g, stop)` carrying one request per
field chunk.  The Python loop does not terminate for a zero step; that case
is mapped to `[]` and excluded by the theorems' hypotheses. -/
def partition_daterange (start stop step g : Nat) (fields : List String)
    (size : Nat) : List AnalyticsSlice :=
  if _hstep : step = 0 then []
  else if _h : start ≤ stop then
    { startDate := start
      endDate := min (start + step - g) stop
      fieldChunks := chunk_analytics_fields fields size } ::
      partition_daterange (start + step) stop step g fields size
  else []
termination_by stop + 1 - start
decreasing_by omega

theorem partition_daterange_nil (start stop step g : Nat) (F : List String)
    (size : Nat) (h : stop < start) :
    partition_daterange start stop step g F size = [] := by
  rw [partition_daterange]
  split
  · rfl
  · rw [dif_neg (by omega : ¬ start ≤ stop)]

theorem partition_daterange_cons (start stop step g : Nat) (F : List String)
    (size : Nat) (hstep : step ≠ 0) (hle : start ≤ stop) :
    partition_daterange start stop step g F size =
      { startDate := start
        endDate := min (start + step - g) stop
        fieldChunks := chunk_analytics_fields F size } ::
        partition_daterange (start + step) stop step g F size := by
  rw [partition_daterange, dif_neg hstep, dif_pos hle]

/-- The conjunction of properties C2 asserts of a produced slice list for a
window `[start, stop]` at day granularity: non-empty, first slice starts at
`start`, last slice ends exactly at `stop`, every slice is a well-formed
interval, consecutive slices are contiguous (next start = previous end + one
day), slices are ordered and pairwise non-overlapping, and the slices cover
exactly the days of `[start, stop]`. -/
def DaterangePartitionOk (start stop : Nat) (slices : List AnalyticsSlice) : Prop :=
  slices ≠ [] ∧
  (slices.map AnalyticsSlice.startDate).head? = some start ∧
  (slices.map AnalyticsSlice.endDate).getLast? = some stop ∧
  (∀ sl ∈ slices, sl.startDate ≤ sl.endDate) ∧
  List.Chain' (fun a b => b.startDate = a.endDate + 1) slices ∧
  slices.Pairwise (fun a b => a.endDate < b.startDate) ∧
  (∀ t, (start ≤ t ∧ t ≤ stop) ↔ ∃ sl ∈ slices, sl.startDate ≤ t ∧ t ≤ sl.endDate)

theorem partition_daterange_ok (stop step : Nat) (F : List String) (size : Nat)
    (hstep : 0 < step) :
    ∀ fuel start, stop + 1 - start ≤ fuel → start ≤ stop →
      DaterangePartitionOk start stop (partition_daterange start stop step 1 F size) := by
  intro fuel
  induction fuel with
  | zero => intro start hfuel hle; omega
  | succ fuel ih =>
    intro start hfuel hle
    rw [partition_daterange_cons start stop step 1 F size (by omega) hle]
    by_cases hnext : start + step ≤ stop
    · -- further slices follow: the produced slice ends at `start + step - 1`
      have hmin : min (start + step - 1) stop = start + step - 1 := by omega
      obtain ⟨hne', hhead', hlast', hwf', hchain', hpair', hcov'⟩ :=
        ih (start + step) (by omega) hnext
      obtain ⟨y, l', heq⟩ := List.exists_cons_of_ne_nil hne'
      rw [heq] at hhead' hlast' hwf' hchain' hpair' hcov' ⊢
      have hy : y.startDate = start + step := by
        simpa using hhead'
      refine ⟨by simp, by simp, ?_, ?_, ?_, ?_, ?_⟩
      · simpa [List.getLast?_cons_cons] using hlast'
      · intro sl hsl
        rcases List.mem_cons.mp hsl with rfl | h
        · simp only [hmin]; omega
        · exact hwf' sl h
      · refine List.chain'_cons'.mpr ⟨?_, hchain'⟩
        intro b hb
        simp only [List.head?_cons, Option.mem_def, Option.some.injEq] at hb
        subst hb
        simp only [hmin]
        omega
      · refine List.pairwise_cons.mpr ⟨?_, hpair'⟩
        intro b hb
        have hb' : start + step ≤ b.startDate ∧ b.startDate ≤ stop :=
          (hcov' b.startDate).mpr ⟨b, hb, le_refl _, hwf' b hb⟩
        simp only [hmin]
        omega
      · intro t
        constructor
        · rintro ⟨h1, h2⟩
          by_cases ht : t ≤ start + step - 1
          · exact ⟨_, List.mem_cons_self _ _, by simp [hmin]; omega⟩
          · obtain ⟨sl, hsl, hsl'⟩ := (hcov' t).mp (by omega)
            exact ⟨sl, List.mem_cons_of_mem _ hsl, hsl'⟩
        · rintro ⟨sl, hsl, h1, h2⟩
          rcases List.mem_cons.mp hsl with rfl | h
          · simp only [hmin] at h1 h2 ⊢
            omega
          · have := (hcov' t).mpr ⟨sl, h, h1, h2⟩
            omega
    · -- final slice: it is truncated to `stop`
      have hmin : min (start + step - 1) stop = stop := by omega
      rw [partition_daterange_nil (start + step) stop step 1 F size (by omega)]
      refine ⟨by simp, by simp, by simp [hmin], ?_, ?_, ?_, ?_⟩
      · intro sl hsl
        rcases List.mem_cons.mp hsl with rfl | h
        · simp only [hmin]; omega
        · simp at h
      · simp
      · simp
      · intro t
        simp only [List.mem_singleton, hmin]
        constructor
        · rintro ⟨h1, h2⟩
          exact ⟨_, rfl, by simpa using ⟨h1, h2⟩⟩
        · rintro ⟨sl, rfl, h1, h2⟩
          simp at h1 h2
          omega

/-- **C2**.  For every window and positive step at day granularity
(`g = 1`): if `start > stop` then `_partition_daterange` produces zero
slices, and if `start ≤ stop` it produces an ordered, contiguous,
non-overlapping sequence of sub-intervals covering exactly `[start, stop]`
whose final sub-interval ends exactly at `stop`. -/
theorem partition_daterange_spec (start stop step : Nat) (F : List String)
    (size : Nat) (hstep : 0 < step) :
    (stop < start → partition_daterange start stop step 1 F size = []) ∧
    (start ≤ stop →
      DaterangePartitionOk start stop (partition_daterange start stop step 1 F size)) := by
  constructor
  · exact partition_daterange_nil start stop step 1 F size
  · exact partition_daterange_ok stop step F size hstep (stop + 1 - start) start
      (le_refl _)

/-- Witness for C2 at a concrete window. -/
theorem partition_daterange_spec_witness :
    (7 < 3 → partition_daterange 3 7 2 1 ["impressions"] 1 = []) ∧
    (3 ≤ 7 →
      DaterangePartitionOk 3 7 (partition_daterange 3 7 2 1 ["impressions"] 1)) :=
  partition_daterange_spec 3 7 2 ["impressions"] 1 (by decide)

/-! ## Records and fragment merging (`LinkedInAdsCustomRetriever.read_records`)

A fragment/record is a Python dict, embedded as an insertion-ordered
association list.  `rset` is dict assignment (`record[k] = v`): it replaces
the first matching key in place and appends a fresh key at the end;
`rupdate` is `dict.update`: it folds `rset` over the other dict's pairs in
order. -/

/-- A record: an insertion-ordered `str → str` dict. -/
abbrev Record := List (String × String)

/-- Dict lookup: value of the first pair whose key matches. -/
def rget : Record → String → Option String
  | [], _ => none
  | (k', v) :: rest, k => if k' = k then some v else rget rest k

/-- Dict assignment `record[k] = v`. -/
def rset : Record → String → String → Record
  | [], k, v => [(k, v)]
  | (k', v') :: rest, k, v =>
      if k' = k then (k, v) :: rest else (k', v') :: rset rest k v

/-- `acc.update(r)`: fold dict assignment over `r`'s pairs in order. -/
def rupdate (acc r : Record) : Record :=
  r.foldl (fun a kv => rset a kv.1 kv.2) acc

/-- The merge key `f"{record['end_date']}-{record['pivotValues']}"`; `none`
models the `KeyError` raised when either field is missing. -/
def mergeKey (r : Record) : Option String :=
  match rget r "end_date", rget r "pivotValues" with
  | some d, some p => some (d ++ "-" ++ p)
  | _, _ => none

theorem rget_rset (a : Record) (k v k' : String) :
    rget (rset a k v) k' = if k = k' then some v else rget a k' := by
  induction a with
  | nil => simp [rget, rset]
  | cons kv rest ih =>
    obtain ⟨k0, v0⟩ := kv
    by_cases h0 : k0 = k
    · subst h0
      simp only [rset, if_pos rfl, rget]
      split_ifs <;> simp_all [rget]
    · simp only [rset, if_neg h0, rget, ih]
      split_ifs <;> simp_all

theorem rget_append (a b : Record) (k : String) :
    rget (a ++ b) k = (rget a k).or (rget b k) := by
  induction a with
  | nil => simp [rget]
  | cons kv rest ih =>
    obtain ⟨k0, v0⟩ := kv
    simp only [List.cons_append, rget, ih]
    split_ifs <;> simp [ih]

theorem rget_eq_none_iff (r : Record) (k : String) :
    rget r k = none ↔ k ∉ r.map Prod.fst := by
  induction r with
  | nil => simp [rget]
  | cons kv rest ih =>
    obtain ⟨k0, v0⟩ := kv
    simp only [rget, List.map_cons, List.mem_cons]
    split_ifs with h <;> simp_all [eq_comm]

/-- The value the accumulated `dict.update`s leave at key `k`: the last
pair of `r` holding `k` wins, else the accumulator's value survives. -/
theorem rupdate_rget (r : Record) : ∀ (a : Record) (k : String),
    rget (rupdate a r) k = (rget r.reverse k).or (rget a k) := by
  induction r with
  | nil => intro a k; simp [rupdate, rget]
  | cons kv rest ih =>
    intro a k
    obtain ⟨k0, v0⟩ := kv
    have : rupdate a ((k0, v0) :: rest) = rupdate (rset a k0 v0) rest := rfl
    rw [this, ih]
    simp only [List.reverse_cons, rget_append, rget_rset]
    rcases rget rest.reverse k with _ | v
    · simp only [Option.none_or]
      split_ifs <;> simp_all [rget]
    · simp

theorem rget_reverse_of_nodup (r : Record) (k : String)
    (h : (r.map Prod.fst).Nodup) : rget r.reverse k = rget r k := by
  induction r with
  | nil => simp
  | cons kv rest ih =>
    obtain ⟨k0, v0⟩ := kv
    simp only [List.map_cons, List.nodup_cons] at h
    simp only [List.reverse_cons, rget_append, rget, ih h.2]
    by_cases hk : k0 = k
    · subst hk
      have : rget rest k0 = none := (rget_eq_none_iff rest k0).mpr h.1
      simp [this, rget]
    · rcases rget rest k with _ | v <;> simp [rget, hk]

/-- `rupdate` at key `k` for a fragment with no duplicate keys: the
fragment's value wins when present, else the accumulator's survives. -/
theorem rupdate_rget_of_nodup (a r : Record) (k : String)
    (h : (r.map Prod.fst).Nodup) :
    rget (rupdate a r) k = (rget r k).or (rget a k) := by
  rw [rupdate_rget, rget_reverse_of_nodup r k h]

theorem rset_keys (a : Record) (k v : String) :
    (rset a k v).map Prod.fst =
      if k ∈ a.map Prod.fst then a.map Prod.fst else a.map Prod.fst ++ [k] := by
  induction a with
  | nil => simp [rset]
  | cons kv rest ih =>
    obtain ⟨k0, v0⟩ := kv
    by_cases h0 : k0 = k
    · subst h0
      simp [rset]
    · simp only [rset, if_neg h0, List.map_cons, ih, List.mem_cons]
      split_ifs <;> simp_all [eq_comm]

theorem rset_nodup (a : Record) (k v : String)
    (h : (a.map Prod.fst).Nodup) : ((rset a k v).map Prod.fst).Nodup := by
  rw [rset_keys]
  split_ifs with hmem
  · exact h
  · simp [List.nodup_append, h, hmem]

theorem rupdate_nodup (r : Record) : ∀ a : Record,
    (a.map Prod.fst).Nodup → ((rupdate a r).map Prod.fst).Nodup := by
  induction r with
  | nil => intro a h; exact h
  | cons kv rest ih =>
    intro a h
    exact ih (rset a kv.1 kv.2) (rset_nodup a kv.1 kv.2 h)

theorem mem_keys_rset (a : Record) (k v x : String) (hx : x ∈ a.map Prod.fst) :
    x ∈ (rset a k v).map Prod.fst := by
  rw [rset_keys]
  split_ifs <;> simp [hx]

theorem self_mem_keys_rset (a : Record) (k v : String) :
    k ∈ (rset a k v).map Prod.fst := by
  rw [rset_keys]
  split_ifs with h <;> simp [h]

theorem mem_keys_rupdate_left (r : Record) : ∀ (a : Record) (x : String),
    x ∈ a.map Prod.fst → x ∈ (rupdate a r).map Prod.fst := by
  induction r with
  | nil => intro a x hx; exact hx
  | cons kv rest ih =>
    intro a x hx
    exact ih (rset a kv.1 kv.2) x (mem_keys_rset a kv.1 kv.2 x hx)

theorem mem_keys_rupdate_right (r : Record) : ∀ (a : Record) (x : String),
    x ∈ r.map Prod.fst → x ∈ (rupdate a r).map Prod.fst := by
  induction r with
  | nil => intro a x hx; simp at hx
  | cons kv rest ih =>
    intro a x hx
    rcases List.mem_cons.mp hx with h | h
    · exact mem_keys_rupdate_left rest (rset a kv.1 kv.2) x
        (h ▸ self_mem_keys_rset a kv.1 kv.2)
    · exact ih (rset a kv.1 kv.2) x h

theorem rupdate_keys_of_subset (r : Record) : ∀ a : Record,
    (∀ x ∈ r.map Prod.fst, x ∈ a.map Prod.fst) →
    (rupdate a r).map Prod.fst = a.map Prod.fst := by
  induction r with
  | nil => intro a _; rfl
  | cons kv rest ih =>
    intro a hsub
    have hk : kv.1 ∈ a.map Prod.fst := hsub kv.1 (by simp)
    have hset : (rset a kv.1 kv.2).map Prod.fst = a.map Prod.fst := by
      rw [rset_keys, if_pos hk]
    have : rupdate a (kv :: rest) = rupdate (rset a kv.1 kv.2) rest := rfl
    rw [this, ih (rset a kv.1 kv.2) (by
      intro x hx
      rw [hset]
      exact hsub x (by simp [hx])), hset]

/-- Two dicts with the same ordered key list, no duplicate keys and the
same lookups are equal. -/
theorem record_ext (a : Record) : ∀ b : Record,
    a.map Prod.fst = b.map Prod.fst → (a.map Prod.fst).Nodup →
    (∀ k, rget a k = rget b k) → a = b := by
  induction a with
  | nil =>
    intro b hk _ _
    cases b with
    | nil => rfl
    | cons kv rest => simp at hk
  | cons kv rest ih =>
    intro b hk hnd hv
    obtain ⟨k0, v0⟩ := kv
    cases b with
    | nil => simp at hk
    | cons kv' rest' =>
      obtain ⟨k0', v0'⟩ := kv'
      simp only [List.map_cons, List.cons.injEq] at hk
      obtain ⟨hkeq, hktail⟩ := hk
      subst hkeq
      have hval : v0 = v0' := by
        have := hv k0
        simpa [rget] using this
      subst hval
      simp only [List.map_cons, List.nodup_cons] at hnd
      have htail : ∀ k, rget rest k = rget rest' k := by
        intro k
        by_cases hkk : k = k0
        · subst hkk
          have h1 : rget rest k = none := (rget_eq_none_iff rest k).mpr hnd.1
          have h2 : rget rest' k = none := by
            rw [rget_eq_none_iff, ← hktail]
            exact hnd.1
          rw [h1, h2]
        · have := hv k
          simp only [rget] at this
          rwa [if_neg (fun h => hkk h.symm), if_neg (fun h => hkk h.symm)] at this
      congr 1
      exact ih rest' hktail hnd.2 htail

/-- Updating with the same fragment twice changes nothing after the first
update. -/
theorem rupdate_idem (a r : Record) (hnd : (a.map Prod.fst).Nodup) :
    rupdate (rupdate a r) r = rupdate a r := by
  have hndb : ((rupdate a r).map Prod.fst).Nodup := rupdate_nodup r a hnd
  apply record_ext
  · exact rupdate_keys_of_subset r (rupdate a r)
      (fun x hx => mem_keys_rupdate_right r a x hx)
  · exact rupdate_nodup r (rupdate a r) hndb
  · intro k
    rw [rupdate_rget, rupdate_rget]
    rcases rget r.reverse k with _ | v
    · simp [rupdate_rget]
    · simp

/-- The accumulator `merged_records = defaultdict(dict)` of `read_records`:
an insertion-ordered map from merge key to the merged record so far. -/
abbrev MergedMap := List (String × Record)

def mlookup : MergedMap → String → Option Record
  | [], _ => none
  | (k', r) :: rest, k => if k' = k then some r else mlookup rest k

/-- `merged_records[key].update(record)` on a `defaultdict(dict)`: a missing
key starts from the empty dict and is appended at the end of the map; an
existing key's merged record is updated in place. -/
def mupdate : MergedMap → String → Record → MergedMap
  | [], k, r => [(k, rupdate [] r)]
  | (k', acc) :: rest, k, r =>
      if k' = k then (k, rupdate acc r) :: rest
      else (k', acc) :: mupdate rest k r

/-- **C8**.  The merge accumulation of `read_records` is idempotent: merging
the same fragment twice under the same merge key leaves exactly the map (and
hence the merged record) produced by merging it once.  The hypothesis is the
invariant that the accumulated merged records are dicts (no duplicate
keys). -/
theorem merge_accumulation_idempotent (m : MergedMap) (k : String) (r : Record)
    (hnd : ∀ e ∈ m, (e.2.map Prod.fst).Nodup) :
    mupdate (mupdate m k r) k r = mupdate m k r := by
  induction m with
  | nil =>
    simp [mupdate, rupdate_idem [] r (by simp : (([] : Record).map Prod.fst).Nodup)]
  | cons e rest ih =>
    obtain ⟨k0, acc⟩ := e
    by_cases h0 : k0 = k
    · subst h0
      simp [mupdate, rupdate_idem acc r (hnd (k0, acc) (by simp))]
    · simp [mupdate, h0, ih (fun e he => hnd e (List.mem_cons_of_mem _ he))]

/-- Witness for C8 at a concrete map, key and fragment. -/
theorem merge_accumulation_idempotent_witness :
    mupdate (mupdate [("D-P", [("a", "1")])] "D-P" [("b", "2")]) "D-P" [("b", "2")] =
      mupdate [("D-P", [("a", "1")])] "D-P" [("b", "2")] :=
  merge_accumulation_idempotent [("D-P", [("a", "1")])] "D-P" [("b", "2")]
    (by decide)

/-! ## The read loop of `read_records`

`read_records` iterates the slice's `field_date_chunks`; each chunk's
retrieval via the inherited `SimpleRetriever.read_records` either yields a
fragment list or raises once its retries are exhausted (`Except.error`).
Records are merged into `merged_records` keyed by
`f"{record['end_date']}-{record['pivotValues']}"`, and only after every
chunk has been processed are the merged values yielded. -/

inductive ReadError where
  | upstreamFailure
  | keyError
deriving Repr, DecidableEq

/-- Merge one retrieved chunk's fragments into the accumulator; a fragment
missing either merge-key field raises (`KeyError`). -/
def mergeChunk : MergedMap → List Record → Except ReadError MergedMap
  | m, [] => .ok m
  | m, r :: rs =>
    match mergeKey r with
    | none => .error .keyError
    | some k => mergeChunk (mupdate m k r) rs

/-- The loop over `field_date_chunks`: the first failed retrieval aborts. -/
def readLoop : List (Except ReadError (List Record)) → MergedMap →
    Except ReadError MergedMap
  | [], m => .ok m
  | .error e :: _, _ => .error e
  | .ok recs :: rest, m =>
    match mergeChunk m recs with
    | .error e => .error e
    | .ok m' => readLoop rest m'

/-- `LinkedInAdsCustomRetriever.read_records` for one slice, abstracted over
the per-chunk retrieval results: merge every chunk's fragments, then emit
`merged_records.values()`. -/
def read_records (results : List (Except ReadError (List Record))) :
    Except ReadError (List Record) :=
  match readLoop results [] with
  | .error e => .error e
  | .ok m => .ok (m.map Prod.snd)

theorem readLoop_error (results : List (Except ReadError (List Record)))
    (e : ReadError) (h : Except.error e ∈ results) :
    ∀ m, ∃ e', readLoop results m = .error e' := by
  induction results with
  | nil => simp at h
  | cons hd rest ih =>
    intro m
    cases hd with
    | error e0 => exact ⟨e0, rfl⟩
    | ok recs =>
      have hrest : Except.error e ∈ rest := by
        rcases List.mem_cons.mp h with h0 | h0
        · cases h0
        · exact h0
      show ∃ e', (match mergeChunk m recs with
        | Except.error e1 => Except.error e1
        | Except.ok m' => readLoop rest m') = Except.error e'
      cases hmc : mergeChunk m recs with
      | error e1 => exact ⟨e1, rfl⟩
      | ok m' => exact ih hrest m'

/-- **C4**.  If the retrieval for any one field-date chunk of the slice
fails terminally, `read_records` for the whole slice fails: it emits no
merged records at all, and every partial merge accumulated before the
failure is discarded (the result is an error, not a record list). -/
theorem read_records_fails_on_chunk_failure
    (results : List (Except ReadError (List Record))) (e : ReadError)
    (h : Except.error e ∈ results) :
    ∃ e', read_records results = .error e' := by
  obtain ⟨e', he'⟩ := readLoop_error results e h []
  exact ⟨e', by rw [read_records, he']⟩

/-- Witness for C4: a slice whose second chunk's retrieval fails. -/
theorem read_records_fails_on_chunk_failure_witness :
    ∃ e', read_records [Except.ok [[("end_date", "D"), ("pivotValues", "P")]],
      Except.error ReadError.upstreamFailure] = .error e' :=
  read_records_fails_on_chunk_failure
    [Except.ok [[("end_date", "D"), ("pivotValues", "P")]],
      Except.error ReadError.upstreamFailure]
    ReadError.upstreamFailure (by simp)

/-! ## Merge completeness (C3) -/

/-- Last-writer-wins lookup across an ordered fragment list: the value of
field `k` in the latest fragment that carries it. -/
def chainLast : List Record → String → Option String
  | [], _ => none
  | f :: fs, k => (chainLast fs k).or (rget f k)

/-- Folding `dict.update` over a fragment list, starting from the empty
dict: the merged record of those fragments. -/
def mergeRecords (frs : List Record) : Record := frs.foldl rupdate []

/-- The merge key as the loop uses it; every fragment reaching the loop has
one (`""` is a dummy for the impossible keyless case). -/
def keyOf (r : Record) : String := (mergeKey r).getD ""

/-- One iteration of the merge loop body of `read_records`. -/
def mergeStep (m : MergedMap) (r : Record) : MergedMap := mupdate m (keyOf r) r

/-- The fragments of a slice's chunk results carrying merge key `K`, in
retrieval order. -/
def keyedRecords (chunks : List (List Record)) (K : String) : List Record :=
  chunks.flatten.filter (fun r => decide (mergeKey r = some K))

theorem foldl_rupdate_rget (frs : List Record)
    (h : ∀ f ∈ frs, (f.map Prod.fst).Nodup) :
    ∀ (a : Record) (k : String),
      rget (frs.foldl rupdate a) k = (chainLast frs k).or (rget a k) := by
  induction frs with
  | nil => intro a k; simp [chainLast]
  | cons f fs ih =>
    intro a k
    simp only [List.foldl_cons, chainLast]
    rw [ih (fun g hg => h g (List.mem_cons_of_mem _ hg)),
      rupdate_rget_of_nodup a f k (h f (List.mem_cons_self _ _))]
    rcases chainLast fs k with _ | v <;> rcases rget f k with _ | w <;> simp

theorem mergeRecords_rget (frs : List Record)
    (h : ∀ f ∈ frs, (f.map Prod.fst).Nodup) (k : String) :
    rget (mergeRecords frs) k = chainLast frs k := by
  rw [mergeRecords, foldl_rupdate_rget frs h]
  rcases chainLast frs k with _ | v <;> simp [rget]

theorem chainLast_isSome (frs : List Record) (k : String) :
    (chainLast frs k).isSome ↔ ∃ f ∈ frs, (rget f k).isSome := by
  induction frs with
  | nil => simp [chainLast]
  | cons f fs ih =>
    simp only [chainLast, List.mem_cons]
    constructor
    · intro h
      rcases h1 : chainLast fs k with _ | v
      · rw [h1] at h
        simp only [Option.none_or] at h
        exact ⟨f, Or.inl rfl, h⟩
      · obtain ⟨g, hg, hg'⟩ := ih.mp (by simp [h1])
        exact ⟨g, Or.inr hg, hg'⟩
    · rintro ⟨g, hg | hg, hg'⟩
      · subst hg
        rcases chainLast fs k with _ | v <;> simp_all
      · have := ih.mpr ⟨g, hg, hg'⟩
        rcases h1 : chainLast fs k with _ | v <;> simp_all

theorem mergeChunk_ok (recs : List Record) :
    ∀ m, (∀ r ∈ recs, (mergeKey r).isSome) →
      mergeChunk m recs = .ok (recs.foldl mergeStep m) := by
  induction recs with
  | nil => intro m _; rfl
  | cons r rs ih =>
    intro m h
    obtain ⟨k, hk⟩ := Option.isSome_iff_exists.mp (h r (List.mem_cons_self _ _))
    show (match mergeKey r with
      | none => Except.error ReadError.keyError
      | some k => mergeChunk (mupdate m k r) rs) = _
    rw [hk]
    show mergeChunk (mupdate m k r) rs = _
    rw [ih (mupdate m k r) (fun x hx => h x (List.mem_cons_of_mem _ hx))]
    have hkey : keyOf r = k := by simp [keyOf, hk]
    simp [mergeStep, hkey]

theorem readLoop_ok (chunks : List (List Record))
    (h : ∀ c ∈ chunks, ∀ r ∈ c, (mergeKey r).isSome) :
    ∀ m, readLoop (chunks.map Except.ok) m =
      .ok (chunks.flatten.foldl mergeStep m) := by
  induction chunks with
  | nil => intro m; rfl
  | cons c cs ih =>
    intro m
    simp only [List.map_cons]
    show (match mergeChunk m c with
      | Except.error e => Except.error e
      | Except.ok m' => readLoop (cs.map Except.ok) m') = _
    rw [mergeChunk_ok c m (h c (List.mem_cons_self _ _))]
    show readLoop (cs.map Except.ok) (c.foldl mergeStep m) = _
    rw [ih (fun c' hc' => h c' (List.mem_cons_of_mem _ hc')) (c.foldl mergeStep m)]
    simp [List.foldl_append]

theorem mlookup_mupdate (m : MergedMap) (k : String) (r : Record) (k' : String) :
    mlookup (mupdate m k r) k' =
      if k = k' then some (rupdate ((mlookup m k).getD []) r)
      else mlookup m k' := by
  induction m with
  | nil =>
    simp only [mupdate, mlookup]
    split_ifs <;> simp_all [mlookup]
  | cons e rest ih =>
    obtain ⟨k0, acc⟩ := e
    by_cases h0 : k0 = k
    · subst h0
      simp only [mupdate, if_pos rfl, mlookup]
      split_ifs <;> simp_all [mlookup]
    · simp only [mupdate, if_neg h0, mlookup, ih]
      split_ifs <;> simp_all

theorem mupdate_keys (m : MergedMap) (k : String) (r : Record) :
    (mupdate m k r).map Prod.fst =
      if k ∈ m.map Prod.fst then m.map Prod.fst
      else m.map Prod.fst ++ [k] := by
  induction m with
  | nil => simp [mupdate]
  | cons e rest ih =>
    obtain ⟨k0, acc⟩ := e
    by_cases h0 : k0 = k
    · subst h0; simp [mupdate]
    · simp only [mupdate, if_neg h0, List.map_cons, ih, List.mem_cons]
      split_ifs <;> simp_all [eq_comm]

theorem mupdate_keys_nodup (m : MergedMap) (k : String) (r : Record)
    (h : (m.map Prod.fst).Nodup) : ((mupdate m k r).map Prod.fst).Nodup := by
  rw [mupdate_keys]
  split_ifs with hmem
  · exact h
  · simp [List.nodup_append, h, hmem]

theorem mupdate_mem (m : MergedMap) (k : String) (r : Record)
    (hnd : (m.map Prod.fst).Nodup) :
    ∀ e ∈ mupdate m k r,
      (e ∈ m ∧ e.1 ≠ k) ∨
      (e.1 = k ∧ e.2 = rupdate ((mlookup m k).getD []) r) := by
  induction m with
  | nil =>
    intro e he
    simp only [mupdate, List.mem_singleton] at he
    subst he
    exact Or.inr ⟨rfl, by simp [mlookup]⟩
  | cons e0 rest ih =>
    obtain ⟨k0, acc⟩ := e0
    intro e he
    simp only [List.map_cons, List.nodup_cons] at hnd
    by_cases h0 : k0 = k
    · subst h0
      simp only [mupdate, if_pos rfl] at he
      rcases List.mem_cons.mp he with rfl | he
      · exact Or.inr ⟨rfl, by simp [mlookup]⟩
      · refine Or.inl ⟨List.mem_cons_of_mem _ he, fun hek => ?_⟩
        exact hnd.1 (hek ▸ List.mem_map_of_mem Prod.fst he)
    · simp only [mupdate, if_neg h0] at he
      rcases List.mem_cons.mp he with rfl | he
      · exact Or.inl ⟨List.mem_cons_self _ _, h0⟩
      · rcases ih hnd.2 e he with ⟨hm, hne⟩ | ⟨hek, hev⟩
        · exact Or.inl ⟨List.mem_cons_of_mem _ hm, hne⟩
        · refine Or.inr ⟨hek, ?_⟩
          rw [show mlookup ((k0, acc) :: rest) k = mlookup rest k from by
            simp [mlookup, h0]]
          exact hev

theorem mergeKey_rupdate (acc r : Record) (k : String)
    (hk : mergeKey r = some k) (hnd : (r.map Prod.fst).Nodup) :
    mergeKey (rupdate acc r) = some k := by
  unfold mergeKey at hk ⊢
  cases hd : rget r "end_date" with
  | none => rw [hd] at hk; cases hk
  | some d =>
    cases hp : rget r "pivotValues" with
    | none => rw [hd, hp] at hk; cases hk
    | some p =>
      rw [hd, hp] at hk
      rw [rupdate_rget_of_nodup acc r _ hnd, rupdate_rget_of_nodup acc r _ hnd,
        hd, hp]
      simpa using hk

/-- Invariant of the accumulator: no duplicate merge keys, and every stored
merged record carries its own merge key. -/
def GoodMap (m : MergedMap) : Prop :=
  (m.map Prod.fst).Nodup ∧ ∀ e ∈ m, mergeKey e.2 = some e.1

theorem mergeStep_good (m : MergedMap) (r : Record)
    (hm : GoodMap m) (hr : (mergeKey r).isSome)
    (hrnd : (r.map Prod.fst).Nodup) : GoodMap (mergeStep m r) := by
  obtain ⟨k, hk⟩ := Option.isSome_iff_exists.mp hr
  have hkey : keyOf r = k := by simp [keyOf, hk]
  constructor
  · rw [mergeStep]
    exact mupdate_keys_nodup m _ r hm.1
  · intro e he
    rcases mupdate_mem m (keyOf r) r hm.1 e he with ⟨hmem, _⟩ | ⟨hek, hev⟩
    · exact hm.2 e hmem
    · rw [hev, hek, hkey]
      exact mergeKey_rupdate _ r k hk hrnd

theorem foldl_mergeStep_good (frs : List Record)
    (h : ∀ r ∈ frs, (mergeKey r).isSome ∧ (r.map Prod.fst).Nodup) :
    ∀ m, GoodMap m → GoodMap (frs.foldl mergeStep m) := by
  induction frs with
  | nil => intro m hm; exact hm
  | cons r rs ih =>
    intro m hm
    exact ih (fun x hx => h x (List.mem_cons_of_mem _ hx)) (mergeStep m r)
      (mergeStep_good m r hm (h r (List.mem_cons_self _ _)).1
        (h r (List.mem_cons_self _ _)).2)

theorem foldl_mergeStep_lookup (frs : List Record) :
    ∀ (m : MergedMap) (K : String),
      mlookup (frs.foldl mergeStep m) K =
        if mlookup m K = none ∧
            frs.filter (fun r => decide (keyOf r = K)) = [] then none
        else some ((frs.filter (fun r => decide (keyOf r = K))).foldl rupdate
          ((mlookup m K).getD [])) := by
  induction frs with
  | nil =>
    intro m K
    simp only [List.foldl_nil, List.filter_nil]
    cases h : mlookup m K with
    | none => simp
    | some v => simp
  | cons r rs ih =>
    intro m K
    simp only [List.foldl_cons, List.filter_cons]
    by_cases hr : keyOf r = K
    · have h1 : mlookup (mergeStep m r) K =
          some (rupdate ((mlookup m K).getD []) r) := by
        rw [mergeStep, hr, mlookup_mupdate, if_pos rfl]
      rw [ih, h1]
      simp [hr]
    · have h1 : mlookup (mergeStep m r) K = mlookup m K := by
        rw [mergeStep, mlookup_mupdate, if_neg hr]
      rw [ih, h1]
      simp [hr]

theorem filter_map_snd (m : MergedMap) (p : Record → Bool) :
    (m.map Prod.snd).filter p = (m.filter (fun e => p e.2)).map Prod.snd := by
  induction m with
  | nil => rfl
  | cons e rest ih =>
    simp only [List.map_cons, List.filter_cons]
    split_ifs <;> simp_all

theorem filter_keys_eq (m : MergedMap) (K : String) (v : Record)
    (hnd : (m.map Prod.fst).Nodup) (h : mlookup m K = some v) :
    m.filter (fun e => decide (e.1 = K)) = [(K, v)] := by
  induction m with
  | nil => simp [mlookup] at h
  | cons e rest ih =>
    obtain ⟨k0, acc⟩ := e
    simp only [List.map_cons, List.nodup_cons] at hnd
    simp only [mlookup] at h
    by_cases h0 : k0 = K
    · subst h0
      rw [if_pos rfl] at h
      injection h with h
      subst h
      have hrest : rest.filter (fun e => decide (e.1 = k0)) = [] := by
        rw [List.filter_eq_nil_iff]
        intro e he
        simp only [decide_eq_true_eq]
        intro hek
        exact hnd.1 (hek ▸ List.mem_map_of_mem Prod.fst he)
      simp [List.filter_cons, hrest]
    · rw [if_neg h0] at h
      have := ih hnd.2 h
      simp only [List.filter_cons]
      rw [if_neg (by simp [h0])]
      exact this

/-- **C3**.  If every field chunk of a slice retrieves successfully and each
returns a fragment carrying merge key `K` (fragments being dicts that carry
the two merge-key fields), then `read_records` emits exactly one merged
record for `K`: the fold of `dict.update` over all `K`-keyed fragments in
retrieval order.  Its field at any key `k` is the latest `K`-fragment's
value for `k` (later fragments overwrite earlier ones), it is present iff
some `K`-fragment carries `k` (union of all the fragments' fields), and a
field present after any prefix of the accumulation is still present at the
end (no field ever reverts from present to absent). -/
theorem read_records_merge_complete (chunks : List (List Record)) (K : String)
    (hne : chunks ≠ [])
    (hfrag : ∀ c ∈ chunks, ∀ r ∈ c, (mergeKey r).isSome ∧ (r.map Prod.fst).Nodup)
    (hK : ∀ c ∈ chunks, ∃ r ∈ c, mergeKey r = some K) :
    ∃ out : List Record,
      read_records (chunks.map Except.ok) = .ok out ∧
      out.filter (fun r => decide (mergeKey r = some K)) =
        [mergeRecords (keyedRecords chunks K)] ∧
      (∀ k, rget (mergeRecords (keyedRecords chunks K)) k =
        chainLast (keyedRecords chunks K) k) ∧
      (∀ k, (rget (mergeRecords (keyedRecords chunks K)) k).isSome ↔
        ∃ f ∈ keyedRecords chunks K, (rget f k).isSome) ∧
      (∀ fs₁ fs₂ k, keyedRecords chunks K = fs₁ ++ fs₂ →
        (rget (mergeRecords fs₁) k).isSome →
        (rget (mergeRecords (keyedRecords chunks K)) k).isSome) := by
  have hflat : ∀ r ∈ chunks.flatten, (mergeKey r).isSome ∧ (r.map Prod.fst).Nodup := by
    intro r hr
    obtain ⟨c, hc, hrc⟩ := List.mem_flatten.mp hr
    exact hfrag c hc r hrc
  have hkeyed_sub : ∀ f ∈ keyedRecords chunks K, f ∈ chunks.flatten := by
    intro f hf
    exact List.mem_of_mem_filter hf
  have hkeyednd : ∀ f ∈ keyedRecords chunks K, (f.map Prod.fst).Nodup :=
    fun f hf => (hflat f (hkeyed_sub f hf)).2
  have hloop : readLoop (chunks.map Except.ok) [] =
      .ok (chunks.flatten.foldl mergeStep []) :=
    readLoop_ok chunks (fun c hc r hr => (hfrag c hc r hr).1) []
  have hrr : read_records (chunks.map Except.ok) =
      .ok ((chunks.flatten.foldl mergeStep []).map Prod.snd) := by
    rw [read_records, hloop]
  have hgood : GoodMap (chunks.flatten.foldl mergeStep []) :=
    foldl_mergeStep_good chunks.flatten hflat [] ⟨by simp, by simp⟩
  have hfilter_eq : chunks.flatten.filter (fun r => decide (keyOf r = K)) =
      keyedRecords chunks K := by
    rw [keyedRecords]
    apply List.filter_congr
    intro r hr
    obtain ⟨k, hk⟩ := Option.isSome_iff_exists.mp (hflat r hr).1
    simp [keyOf, hk]
  have hKne : keyedRecords chunks K ≠ [] := by
    obtain ⟨c, hc⟩ := List.exists_mem_of_ne_nil chunks hne
    obtain ⟨r, hrc, hrK⟩ := hK c hc
    intro h0
    have hmem : r ∈ keyedRecords chunks K := by
      rw [keyedRecords]
      exact List.mem_filter.mpr
        ⟨List.mem_flatten.mpr ⟨c, hc, hrc⟩, by simp [hrK]⟩
    rw [h0] at hmem
    simp at hmem
  have hlook : mlookup (chunks.flatten.foldl mergeStep []) K =
      some (mergeRecords (keyedRecords chunks K)) := by
    rw [foldl_mergeStep_lookup, hfilter_eq,
      if_neg (fun hcond => hKne hcond.2)]
    rfl
  refine ⟨(chunks.flatten.foldl mergeStep []).map Prod.snd, hrr, ?_, ?_, ?_, ?_⟩
  · rw [filter_map_snd]
    have hcongr : (chunks.flatten.foldl mergeStep []).filter
        (fun e => decide (mergeKey e.2 = some K)) =
        (chunks.flatten.foldl mergeStep []).filter (fun e => decide (e.1 = K)) := by
      apply List.filter_congr
      intro e he
      rw [hgood.2 e he]
      simp
    rw [hcongr, filter_keys_eq _ K _ hgood.1 hlook]
    rfl
  · intro k
    exact mergeRecords_rget _ hkeyednd k
  · intro k
    rw [mergeRecords_rget _ hkeyednd k]
    exact chainLast_isSome _ k
  · intro fs₁ fs₂ k heq hsome
    have hnd₂ : ∀ f ∈ fs₂, (f.map Prod.fst).Nodup := by
      intro f hf
      exact hkeyednd f (heq ▸ List.mem_append_right fs₁ hf)
    rw [heq, mergeRecords, List.foldl_append,
      foldl_rupdate_rget fs₂ hnd₂]
    rcases chainLast fs₂ k with _ | v
    · simpa [mergeRecords] using hsome
    · simp

/-- Witness for C3: two chunks, each contributing one fragment for the
merge key `"D-P"`. -/
theorem read_records_merge_complete_witness :
    ∃ out : List Record,
      read_records ([[[("end_date", "D"), ("pivotValues", "P"), ("a", "1")]],
          [[("end_date", "D"), ("pivotValues", "P"), ("b", "2")]]].map Except.ok) =
        .ok out ∧
      out.filter (fun r => decide (mergeKey r = some "D-P")) =
        [mergeRecords (keyedRecords
          [[[("end_date", "D"), ("pivotValues", "P"), ("a", "1")]],
            [[("end_date", "D"), ("pivotValues", "P"), ("b", "2")]]] "D-P")] ∧
      (∀ k, rget (mergeRecords (keyedRecords
          [[[("end_date", "D"), ("pivotValues", "P"), ("a", "1")]],
            [[("end_date", "D"), ("pivotValues", "P"), ("b", "2")]]] "D-P")) k =
        chainLast (keyedRecords
          [[[("end_date", "D"), ("pivotValues", "P"), ("a", "1")]],
            [[("end_date", "D"), ("pivotValues", "P"), ("b", "2")]]] "D-P") k) ∧
      (∀ k, (rget (mergeRecords (keyedRecords
          [[[("end_date", "D"), ("pivotValues", "P"), ("a", "1")]],
            [[("end_date", "D"), ("pivotValues", "P"), ("b", "2")]]] "D-P")) k).isSome ↔
        ∃ f ∈ keyedRecords
          [[[("end_date", "D"), ("pivotValues", "P"), ("a", "1")]],
            [[("end_date", "D"), ("pivotValues", "P"), ("b", "2")]]] "D-P",
          (rget f k).isSome) ∧
      (∀ fs₁ fs₂ k, keyedRecords
          [[[("end_date", "D"), ("pivotValues", "P"), ("a", "1")]],
            [[("end_date", "D"), ("pivotValues", "P"), ("b", "2")]]] "D-P" = fs₁ ++ fs₂ →
        (rget (mergeRecords fs₁) k).isSome →
        (rget (mergeRecords (keyedRecords
          [[[("end_date", "D"), ("pivotValues", "P"), ("a", "1")]],
            [[("end_date", "D"), ("pivotValues", "P"), ("b", "2")]]] "D-P")) k).isSome) :=
  read_records_merge_complete
    [[[("end_date", "D"), ("pivotValues", "P"), ("a", "1")]],
      [[("end_date", "D"), ("pivotValues", "P"), ("b", "2")]]] "D-P"
    (by decide) (by decide) (by decide)

/-! ## Per-partition cursor store (`AnalyticsPerPartitionCursor`)

`generate_slices_from_partition` (components.py lines 135–153) first calls
the framework's `_ensure_partition_limit`, then fetches or creates the
partition's cursor and yields that cursor's slices wrapped with the
partition.  Cursors are modelled by the state they were seeded from; slice
generation (`cursor.stream_slices()`) is a framework collaborator supplied
as a parameter. -/

abbrev StateBlob := String

/-- The store backing `AnalyticsPerPartitionCursor`:
`_cursor_per_partition` as an insertion-ordered map from partition key to
the seeding state of its cursor (`none` = the `_NO_CURSOR_STATE`
sentinel), the configured maximum number of tracked partitions, and
`_state_to_migrate_from`. -/
structure PartitionCursorStore where
  cursorPerPartition : List (String × Option StateBlob)
  maxPartitions : Nat
  stateToMigrateFrom : Option StateBlob
deriving Repr, DecidableEq

inductive PartitionError where
  | tooManyPartitions
deriving Repr, DecidableEq

/-- Modelled from the spec: the framework method `_ensure_partition_limit`
(declared on the declarative CDK's `PerPartitionCursor`, whose sources are
not part of this repository's tree) "enforces a maximum tracked-partition
count before admitting a new partition — exceeding it fails with a
`TooManyPartitionsError`". -/
def ensure_partition_limit (st : PartitionCursorStore) :
    Except PartitionError Unit :=
  if st.maxPartitions ≤ st.cursorPerPartition.length then
    .error .tooManyPartitions
  else .ok ()

def lookupCursor : List (String × Option StateBlob) → String →
    Option (Option StateBlob)
  | [], _ => none
  | (k', c) :: rest, k => if k' = k then some c else lookupCursor rest k

/-- `AnalyticsPerPartitionCursor.generate_slices_from_partition`: check the
partition limit first; then look up the partition's cursor, creating and
registering one seeded from `_state_to_migrate_from` (else the no-state
sentinel) when absent; finally yield the cursor's slices wrapped with the
partition key. -/
def generate_slices_from_partition (st : PartitionCursorStore) (pkey : String)
    (slicesOf : Option StateBlob → List Nat) :
    Except PartitionError (PartitionCursorStore × List (String × Nat)) :=
  match ensure_partition_limit st with
  | .error e => .error e
  | .ok _ =>
    match lookupCursor st.cursorPerPartition pkey with
    | some c => .ok (st, (slicesOf c).map (fun s => (pkey, s)))
    | none =>
      .ok ({ st with cursorPerPartition :=
          st.cursorPerPartition ++ [(pkey, st.stateToMigrateFrom)] },
        (slicesOf st.stateToMigrateFrom).map (fun s => (pkey, s)))

/-- **C5** (settled against the spec-modelled `_ensure_partition_limit`).
When the number of tracked partitions already equals the configured
maximum, `generate_slices_from_partition` fails with
`TooManyPartitionsError` — the limit check runs before any admission —
while under the limit it succeeds and never evicts a tracked partition. -/
theorem generate_slices_partition_limit (st : PartitionCursorStore)
    (pkey : String) (slicesOf : Option StateBlob → List Nat) :
    (st.cursorPerPartition.length = st.maxPartitions →
      generate_slices_from_partition st pkey slicesOf =
        .error .tooManyPartitions) ∧
    (st.cursorPerPartition.length < st.maxPartitions →
      ∃ st' out, generate_slices_from_partition st pkey slicesOf = .ok (st', out) ∧
        ∀ e ∈ st.cursorPerPartition, e ∈ st'.cursorPerPartition) := by
  constructor
  · intro h
    have he : ensure_partition_limit st = .error .tooManyPartitions := by
      rw [ensure_partition_limit, if_pos (by omega)]
    rw [generate_slices_from_partition, he]
  · intro h
    have he : ensure_partition_limit st = .ok () := by
      rw [ensure_partition_limit, if_neg (by omega)]
    rw [generate_slices_from_partition, he]
    cases hc : lookupCursor st.cursorPerPartition pkey with
    | some c => exact ⟨st, _, rfl, fun e he => he⟩
    | none => exact ⟨_, _, rfl, fun e he => List.mem_append_left _ he⟩

/-- Witness for C5: a store already tracking its maximum of one
partition. -/
theorem generate_slices_partition_limit_witness :
    ((PartitionCursorStore.mk [("p1", some "s")] 1 none).cursorPerPartition.length =
        (PartitionCursorStore.mk [("p1", some "s")] 1 none).maxPartitions →
      generate_slices_from_partition (PartitionCursorStore.mk [("p1", some "s")] 1 none)
        "p2" (fun _ => [0]) = .error .tooManyPartitions) ∧
    ((PartitionCursorStore.mk [("p1", some "s")] 1 none).cursorPerPartition.length <
        (PartitionCursorStore.mk [("p1", some "s")] 1 none).maxPartitions →
      ∃ st' out,
        generate_slices_from_partition (PartitionCursorStore.mk [("p1", some "s")] 1 none)
          "p2" (fun _ => [0]) = .ok (st', out) ∧
        ∀ e ∈ (PartitionCursorStore.mk [("p1", some "s")] 1 none).cursorPerPartition,
          e ∈ st'.cursorPerPartition) :=
  generate_slices_partition_limit (PartitionCursorStore.mk [("p1", some "s")] 1 none)
    "p2" (fun _ => [0])

/-! ## Campaign end-date resolution
(`CampaignAnalyticsDatetimeBasedCursor.stream_slices`)

Datetimes are `Nat` time points.  `datetime.fromtimestamp(int(ms / 1000),
tz)` is modelled from the spec as the epoch-second count `ms / 1000` (the
timezone affects only the rendering of the instant, not the instant);
`datetime.now(tz)` is the parameter `now` and the framework methods
`select_best_end_datetime()` / `_calculate_earliest_possible_value(end)`
are the parameters `best` / `startOf`. -/

/-- `self.partition.extra_fields` as `stream_slices` reads it: the
`"status"` value (absent ⇒ `KeyError` on subscript), and the
`"runSchedule"` dict (absent ⇒ `KeyError`; `some none` = present without an
`"end"` entry; `some (some ms)` = present with schedule end `ms`
milliseconds since the epoch). -/
structure CampaignExtraFields where
  status : Option String
  runSchedule : Option (Option Nat)
deriving Repr, DecidableEq

inductive SliceError where
  | keyError
deriving Repr, DecidableEq

/-- Lines 231–239 of `stream_slices`: the effective end date of the
partition's window. -/
def resolve_end_datetime (p : CampaignExtraFields) (now best : Nat) :
    Except SliceError Nat :=
  match p.status with
  | none => .error .keyError
  | some st =>
    if st = "COMPLETED" then
      match p.runSchedule with
      | none => .error .keyError
      | some (some endMs) => .ok (endMs / 1000)
      | some none => .ok now
    else .ok best

/-- `CampaignAnalyticsDatetimeBasedCursor.stream_slices`: resolve the
effective end date, compute the earliest possible start, and partition the
date range only when `start < end` (otherwise return no slices). -/
def campaign_stream_slices (p : CampaignExtraFields) (now best : Nat)
    (startOf : Nat → Nat) (step g : Nat) (F : List String) (size : Nat) :
    Except SliceError (List AnalyticsSlice) :=
  match resolve_end_datetime p now best with
  | .error e => .error e
  | .ok endD =>
    if startOf endD < endD then
      .ok (partition_daterange (startOf endD) endD step g F size)
    else .ok []

theorem campaign_stream_slices_eq_of_resolve (p : CampaignExtraFields)
    (now best : Nat) (startOf : Nat → Nat) (step g : Nat) (F : List String)
    (size : Nat) (endD : Nat)
    (hres : resolve_end_datetime p now best = .ok endD) :
    campaign_stream_slices p now best startOf step g F size =
      .ok (if startOf endD < endD then
        partition_daterange (startOf endD) endD step g F size
      else []) := by
  rw [campaign_stream_slices, hres]
  show (if startOf endD < endD then
      Except.ok (partition_daterange (startOf endD) endD step g F size)
    else Except.ok []) = _
  split_ifs <;> rfl

theorem campaign_stream_slices_err_of_resolve (p : CampaignExtraFields)
    (now best : Nat) (startOf : Nat → Nat) (step g : Nat) (F : List String)
    (size : Nat) (e : SliceError)
    (hres : resolve_end_datetime p now best = .error e) :
    campaign_stream_slices p now best startOf step g F size = .error e := by
  rw [campaign_stream_slices, hres]

/-- **C6** (the millisecond conversion is spec-modelled as epoch-second
division).  `stream_slices` resolves the effective end date as: the
schedule end timestamp converted from milliseconds since the epoch when the
campaign is completed and `runSchedule` has an `"end"` entry; the current
wall-clock time when completed without a schedule end; the framework's
best-end-date heuristic when not completed. -/
theorem campaign_stream_slices_end_date (p : CampaignExtraFields)
    (now best : Nat) (startOf : Nat → Nat) (step g : Nat) (F : List String)
    (size : Nat) :
    (∀ ms, p.status = some "COMPLETED" → p.runSchedule = some (some ms) →
      campaign_stream_slices p now best startOf step g F size =
        .ok (if startOf (ms / 1000) < ms / 1000 then
          partition_daterange (startOf (ms / 1000)) (ms / 1000) step g F size
        else [])) ∧
    (p.status = some "COMPLETED" → p.runSchedule = some none →
      campaign_stream_slices p now best startOf step g F size =
        .ok (if startOf now < now then
          partition_daterange (startOf now) now step g F size
        else [])) ∧
    (∀ st, p.status = some st → st ≠ "COMPLETED" →
      campaign_stream_slices p now best startOf step g F size =
        .ok (if startOf best < best then
          partition_daterange (startOf best) best step g F size
        else [])) := by
  refine ⟨?_, ?_, ?_⟩
  · intro ms hst hrs
    exact campaign_stream_slices_eq_of_resolve p now best startOf step g F size
      (ms / 1000) (by simp [resolve_end_datetime, hst, hrs])
  · intro hst hrs
    exact campaign_stream_slices_eq_of_resolve p now best startOf step g F size
      now (by simp [resolve_end_datetime, hst, hrs])
  · intro st hst hne
    exact campaign_stream_slices_eq_of_resolve p now best startOf step g F size
      best (by simp [resolve_end_datetime, hst, hne])

/-- Witness for C6: a completed campaign with schedule end
1 700 000 000 000 ms (effective end 1 700 000 000 s). -/
theorem campaign_stream_slices_end_date_witness :
    (∀ ms, (CampaignExtraFields.mk (some "COMPLETED") (some (some 1700000000000))).status =
        some "COMPLETED" →
      (CampaignExtraFields.mk (some "COMPLETED") (some (some 1700000000000))).runSchedule =
        some (some ms) →
      campaign_stream_slices
        (CampaignExtraFields.mk (some "COMPLETED") (some (some 1700000000000)))
        3 7 (fun e => e - 2) 1 1 ["a"] 1 =
        .ok (if (ms / 1000) - 2 < ms / 1000 then
          partition_daterange ((ms / 1000) - 2) (ms / 1000) 1 1 ["a"] 1
        else [])) ∧
    ((CampaignExtraFields.mk (some "COMPLETED") (some (some 1700000000000))).status =
        some "COMPLETED" →
      (CampaignExtraFields.mk (some "COMPLETED") (some (some 1700000000000))).runSchedule =
        some none →
      campaign_stream_slices
        (CampaignExtraFields.mk (some "COMPLETED") (some (some 1700000000000)))
        3 7 (fun e => e - 2) 1 1 ["a"] 1 =
        .ok (if 3 - 2 < 3 then partition_daterange (3 - 2) 3 1 1 ["a"] 1 else [])) ∧
    (∀ st, (CampaignExtraFields.mk (some "COMPLETED") (some (some 1700000000000))).status =
        some st → st ≠ "COMPLETED" →
      campaign_stream_slices
        (CampaignExtraFields.mk (some "COMPLETED") (some (some 1700000000000)))
        3 7 (fun e => e - 2) 1 1 ["a"] 1 =
        .ok (if 7 - 2 < 7 then partition_daterange (7 - 2) 7 1 1 ["a"] 1 else [])) :=
  campaign_stream_slices_end_date
    (CampaignExtraFields.mk (some "COMPLETED") (some (some 1700000000000)))
    3 7 (fun e => e - 2) 1 1 ["a"] 1

/-- **C7**.  Whenever the computed effective start date is not strictly
before the resolved effective end date, `stream_slices` produces zero
slices and no error. -/
theorem campaign_stream_slices_empty (p : CampaignExtraFields)
    (now best : Nat) (startOf : Nat → Nat) (step g : Nat) (F : List String)
    (size : Nat) (endD : Nat)
    (hres : resolve_end_datetime p now best = .ok endD)
    (hse : ¬ startOf endD < endD) :
    campaign_stream_slices p now best startOf step g F size = .ok [] := by
  rw [campaign_stream_slices, hres]
  show (if startOf endD < endD then _ else Except.ok []) = Except.ok []
  rw [if_neg hse]

/-- Witness for C7: a non-completed campaign whose earliest possible start
is past the effective end date. -/
theorem campaign_stream_slices_empty_witness :
    resolve_end_datetime (CampaignExtraFields.mk (some "ACTIVE") none) 3 5 = .ok 5 ∧
    ¬ (10 : Nat) < 5 ∧
    campaign_stream_slices (CampaignExtraFields.mk (some "ACTIVE") none)
      3 5 (fun _ => 10) 1 1 ["a"] 1 = .ok [] :=
  ⟨by simp [resolve_end_datetime], by decide,
    campaign_stream_slices_empty (CampaignExtraFields.mk (some "ACTIVE") none)
      3 5 (fun _ => 10) 1 1 ["a"] 1 5 (by simp [resolve_end_datetime]) (by decide)⟩

/-- **C10**.  `stream_slices` raises a `KeyError` when the partition's
`extra_fields` report a completed status but contain no `"runSchedule"`
key at all, and likewise when they contain no `"status"` key; the fallback
to the current wall-clock time happens only when `"runSchedule"` is
present but lacks an `"end"` entry. -/
theorem campaign_stream_slices_keyError (p : CampaignExtraFields)
    (now best : Nat) (startOf : Nat → Nat) (step g : Nat) (F : List String)
    (size : Nat) :
    (p.status = some "COMPLETED" → p.runSchedule = none →
      campaign_stream_slices p now best startOf step g F size =
        .error .keyError) ∧
    (p.status = none →
      campaign_stream_slices p now best startOf step g F size =
        .error .keyError) ∧
    (p.status = some "COMPLETED" → p.runSchedule = some none →
      campaign_stream_slices p now best startOf step g F size =
        .ok (if startOf now < now then
          partition_daterange (startOf now) now step g F size
        else [])) := by
  refine ⟨?_, ?_, ?_⟩
  · intro hst hrs
    exact campaign_stream_slices_err_of_resolve p now best startOf step g F size
      .keyError (by simp [resolve_end_datetime, hst, hrs])
  · intro hst
    exact campaign_stream_slices_err_of_resolve p now best startOf step g F size
      .keyError (by simp [resolve_end_datetime, hst])
  · intro hst hrs
    exact campaign_stream_slices_eq_of_resolve p now best startOf step g F size
      now (by simp [resolve_end_datetime, hst, hrs])

/-- Witness for C10: a completed campaign whose `extra_fields` lack the
`"runSchedule"` key. -/
theorem campaign_stream_slices_keyError_witness :
    ((CampaignExtraFields.mk (some "COMPLETED") none).status = some "COMPLETED" →
      (CampaignExtraFields.mk (some "COMPLETED") none).runSchedule = none →
      campaign_stream_slices (CampaignExtraFields.mk (some "COMPLETED") none)
        3 7 (fun e => e - 2) 1 1 ["a"] 1 = .error .keyError) ∧
    ((CampaignExtraFields.mk (some "COMPLETED") none).status = none →
      campaign_stream_slices (CampaignExtraFields.mk (some "COMPLETED") none)
        3 7 (fun e => e - 2) 1 1 ["a"] 1 = .error .keyError) ∧
    ((CampaignExtraFields.mk (some "COMPLETED") none).status = some "COMPLETED" →
      (CampaignExtraFields.mk (some "COMPLETED") none).runSchedule = some none →
      campaign_stream_slices (CampaignExtraFields.mk (some "COMPLETED") none)
        3 7 (fun e => e - 2) 1 1 ["a"] 1 =
        .ok (if 3 - 2 < 3 then partition_daterange (3 - 2) 3 1 1 ["a"] 1 else [])) :=
  campaign_stream_slices_keyError (CampaignExtraFields.mk (some "COMPLETED") none)
    3 7 (fun e => e - 2) 1 1 ["a"] 1

/-! ## Record normalization
(`LinkedInAdsRecordExtractor._date_time_to_rfc3339`)

A record here is a dict whose values may be JSON `null` (`Option String`
with `none` = null), since the Python code distinguishes absent keys,
present-null values and present string values via `record.get(item) is not
None`.  The composite `pendulum.parse( ).to_rfc3339_string()` is an external
library call; per the spec it renders RFC 3339 strings, so it is supplied
as a parameter `rfc` assumed idempotent on its image
(`rfc (rfc s) = rfc s`). -/

/-- A record whose values may be JSON null. -/
abbrev NRecord := List (String × Option String)

def nget : NRecord → String → Option (Option String)
  | [], _ => none
  | (k', v) :: rest, k => if k' = k then some v else nget rest k

def nset : NRecord → String → Option String → NRecord
  | [], k, v => [(k, v)]
  | (k', v') :: rest, k, v =>
      if k' = k then (k, v) :: rest else (k', v') :: nset rest k v

/-- One iteration of the loop body of `_date_time_to_rfc3339`: convert
field `k` when it is present and non-null
(`if record.get(item) is not None: record[item] = …`). -/
def normField (rfc : String → String) (r : NRecord) (k : String) : NRecord :=
  match nget r k with
  | some (some v) => nset r k (some (rfc v))
  | _ => r

/-- `LinkedInAdsRecordExtractor._date_time_to_rfc3339`: convert
`"lastModified"`, then `"created"`. -/
def date_time_to_rfc3339 (rfc : String → String) (r : NRecord) : NRecord :=
  normField rfc (normField rfc r "lastModified") "created"

theorem nget_nset (r : NRecord) (k : String) (v : Option String) (k' : String) :
    nget (nset r k v) k' = if k = k' then some v else nget r k' := by
  induction r with
  | nil => simp [nget, nset]
  | cons kv rest ih =>
    obtain ⟨k0, v0⟩ := kv
    by_cases h0 : k0 = k
    · subst h0
      simp only [nset, if_pos rfl, nget]
      split_ifs <;> simp_all [nget]
    · simp only [nset, if_neg h0, nget, ih]
      split_ifs <;> simp_all

theorem nset_same (r : NRecord) (k : String) (v : Option String)
    (h : nget r k = some v) : nset r k v = r := by
  induction r with
  | nil => simp [nget] at h
  | cons kv rest ih =>
    obtain ⟨k0, v0⟩ := kv
    by_cases h0 : k0 = k
    · subst h0
      simp only [nget, if_pos rfl] at h
      injection h with h
      simp [nset, h]
    · simp only [nget, if_neg h0] at h
      simp [nset, h0, ih h]

theorem nget_normField_ne (rfc : String → String) (r : NRecord)
    (k k' : String) (h : k ≠ k') :
    nget (normField rfc r k) k' = nget r k' := by
  rw [normField]
  cases hk : nget r k with
  | none => rfl
  | some o =>
    cases o with
    | none => rfl
    | some v => rw [nget_nset, if_neg h]

theorem nget_normField_self (rfc : String → String) (r : NRecord) (k : String) :
    nget (normField rfc r k) k = (nget r k).map (fun o => o.map rfc) := by
  rw [normField]
  cases hk : nget r k with
  | none => simp [hk]
  | some o =>
    cases o with
    | none => simp [hk]
    | some v => simp [nget_nset, hk]

/-- When every present non-null value of field `k` is a fixed point of
`rfc`, converting field `k` changes nothing. -/
theorem normField_stable (rfc : String → String) (r : NRecord) (k : String)
    (h : ∀ w, nget r k = some (some w) → rfc w = w) :
    normField rfc r k = r := by
  rw [normField]
  cases hk : nget r k with
  | none => rfl
  | some o =>
    cases o with
    | none => rfl
    | some w =>
      show nset r k (some (rfc w)) = r
      rw [h w hk]
      exact nset_same r k (some w) hk

/-- **C9** (`pendulum.parse( ).to_rfc3339_string()` spec-modelled as the
abstract map `rfc`, idempotent on its image).  `_date_time_to_rfc3339`
converts the `"lastModified"` and `"created"` fields only when present and
non-null (absent fields stay absent, null fields stay null), leaves every
other field untouched, and is idempotent: normalizing an already-normalized
record returns it unchanged. -/
theorem date_time_to_rfc3339_spec (rfc : String → String) (r : NRecord)
    (hrfc : ∀ s, rfc (rfc s) = rfc s) :
    (∀ k, k ≠ "lastModified" → k ≠ "created" →
      nget (date_time_to_rfc3339 rfc r) k = nget r k) ∧
    (∀ k, k = "lastModified" ∨ k = "created" →
      (nget r k = none → nget (date_time_to_rfc3339 rfc r) k = none) ∧
      (nget r k = some none → nget (date_time_to_rfc3339 rfc r) k = some none) ∧
      (∀ v, nget r k = some (some v) →
        nget (date_time_to_rfc3339 rfc r) k = some (some (rfc v)))) ∧
    date_time_to_rfc3339 rfc (date_time_to_rfc3339 rfc r) =
      date_time_to_rfc3339 rfc r := by
  have hdistinct : ("created" : String) ≠ "lastModified" := by decide
  have hlm : ∀ s : NRecord, nget (date_time_to_rfc3339 rfc s) "lastModified" =
      (nget s "lastModified").map (fun o => o.map rfc) := by
    intro s
    rw [date_time_to_rfc3339, nget_normField_ne rfc _ _ _ hdistinct,
      nget_normField_self]
  have hcr : ∀ s : NRecord, nget (date_time_to_rfc3339 rfc s) "created" =
      (nget s "created").map (fun o => o.map rfc) := by
    intro s
    rw [date_time_to_rfc3339, nget_normField_self,
      nget_normField_ne rfc _ _ _ (fun h => hdistinct h.symm)]
  refine ⟨?_, ?_, ?_⟩
  · intro k hk1 hk2
    rw [date_time_to_rfc3339, nget_normField_ne rfc _ _ _ (fun h => hk2 h.symm),
      nget_normField_ne rfc _ _ _ (fun h => hk1 h.symm)]
  · intro k hk
    rcases hk with rfl | rfl
    · exact ⟨fun h => by rw [hlm r, h]; rfl,
        fun h => by rw [hlm r, h]; rfl,
        fun v h => by rw [hlm r, h]; rfl⟩
    · exact ⟨fun h => by rw [hcr r, h]; rfl,
        fun h => by rw [hcr r, h]; rfl,
        fun v h => by rw [hcr r, h]; rfl⟩
  · have hstable_lm : normField rfc (date_time_to_rfc3339 rfc r) "lastModified" =
        date_time_to_rfc3339 rfc r := by
      apply normField_stable
      intro w hw
      rw [hlm r] at hw
      cases ho : nget r "lastModified" with
      | none => rw [ho] at hw; cases hw
      | some o =>
        cases o with
        | none => rw [ho] at hw; cases hw
        | some v =>
          rw [ho] at hw
          simp only [Option.map_some'] at hw
          injection hw with hw
          injection hw with hw
          rw [← hw, hrfc]
    have hstable_cr : normField rfc (date_time_to_rfc3339 rfc r) "created" =
        date_time_to_rfc3339 rfc r := by
      apply normField_stable
      intro w hw
      rw [hcr r] at hw
      cases ho : nget r "created" with
      | none => rw [ho] at hw; cases hw
      | some o =>
        cases o with
        | none => rw [ho] at hw; cases hw
        | some v =>
          rw [ho] at hw
          simp only [Option.map_some'] at hw
          injection hw with hw
          injection hw with hw
          rw [← hw, hrfc]
    show normField rfc (normField rfc (date_time_to_rfc3339 rfc r) "lastModified")
        "created" = date_time_to_rfc3339 rfc r
    rw [hstable_lm, hstable_cr]

/-- Witness for C9 at a concrete record and a concrete idempotent
renderer. -/
theorem date_time_to_rfc3339_spec_witness :
    (∀ k, k ≠ "lastModified" → k ≠ "created" →
      nget (date_time_to_rfc3339 (fun _ => "T")
        [("created", some "x"), ("impressions", some "3"), ("lastModified", none)]) k =
      nget [("created", some "x"), ("impressions", some "3"), ("lastModified", none)] k) ∧
    (∀ k, k = "lastModified" ∨ k = "created" →
      (nget [("created", some "x"), ("impressions", some "3"), ("lastModified", none)] k =
          none →
        nget (date_time_to_rfc3339 (fun _ => "T")
          [("created", some "x"), ("impressions", some "3"), ("lastModified", none)]) k =
          none) ∧
      (nget [("created", some "x"), ("impressions", some "3"), ("lastModified", none)] k =
          some none →
        nget (date_time_to_rfc3339 (fun _ => "T")
          [("created", some "x"), ("impressions", some "3"), ("lastModified", none)]) k =
          some none) ∧
      (∀ v, nget [("created", some "x"), ("impressions", some "3"),
          ("lastModified", none)] k = some (some v) →
        nget (date_time_to_rfc3339 (fun _ => "T")
          [("created", some "x"), ("impressions", some "3"), ("lastModified", none)]) k =
          some (some ((fun _ => "T") v)))) ∧
    date_time_to_rfc3339 (fun _ => "T") (date_time_to_rfc3339 (fun _ => "T")
      [("created", some "x"), ("impressions", some "3"), ("lastModified", none)]) =
      date_time_to_rfc3339 (fun _ => "T")
        [("created", some "x"), ("impressions", some "3"), ("lastModified", none)] :=
  date_time_to_rfc3339_spec (fun _ => "T")
    [("created", some "x"), ("impressions", some "3"), ("lastModified", none)]
    (fun _ => rfl)

end LinkedInAds
